import Mathlib

/-!
Verification of `src/Q1.py`: two dynamic-programming solvers for the
minimum-cost partition of a string into contiguous pieces, where a
black-box cost function `B` assigns a cost to each piece.

Costs are modelled as `WithTop ℚ`: Python's `float('inf')` is `⊤`, and
finite real costs (possibly negative or non-integer) are rationals.
Addition and `min` on `WithTop ℚ` agree with IEEE behaviour on the
values the program manipulates (no NaN, per the specification).

The Python DP tables (lists of floats) are modelled as total functions
`Nat → Cost` / `Nat → Nat → Cost`; every index the program reads or
writes is in range except the final `dp[0][n-1]` of `my_approach` when
`n = 0`, which raises `IndexError` in Python and is modelled by an
`Option` result.
-/

namespace Q1

abbrev Cost := WithTop ℚ

/-- Python slice `y[a:b]` (clamped at the ends, as in Python). -/
def slice (y : List Char) (a b : Nat) : List Char :=
  (y.drop a).take (b - a)

/-- Python indexing `y[i]` for an in-range index (out-of-range accesses
never occur at the call sites modelled here). -/
def charAt (y : List Char) (i : Nat) : Char :=
  y.getD i 'a'

/-- Write `v` at index `a` of a 1-dimensional table. -/
def update1 (d : Nat → Cost) (a : Nat) (v : Cost) : Nat → Cost :=
  fun k => if k = a then v else d k

/-- Write `v` at position `(a, b)` of a 2-dimensional table. -/
def update2 (T : Nat → Nat → Cost) (a b : Nat) (v : Cost) : Nat → Nat → Cost :=
  fun i j => if i = a ∧ j = b then v else T i j

/-! ### `my_approach` (interval DP, `src/Q1.py` lines 8–39) -/

/-- The table after the base-case loop
`for i in range(n): dp[i][i] = B(y[i])`, starting from the
all-`inf` table `dp = [[float('inf') ...] ...]`. -/
def baseT (y : List Char) (B : List Char → Cost) : Nat → Nat → Cost :=
  (List.range y.length).foldl (fun T i => update2 T i i (B [charAt y i])) (fun _ _ => ⊤)

/-- The value stored into `dp[i][j]`: `dp[i][j] = B(y[i:j+1])` followed by
`for k in range(i, j): dp[i][j] = min(dp[i][j], dp[i][k] + dp[k+1][j])`. -/
def cellVal (y : List Char) (B : List Char → Cost) (T : Nat → Nat → Cost) (i j : Nat) : Cost :=
  (List.range' i (j - i)).foldl (fun a k => min a (T i k + T (k + 1) j))
    (B (slice y i (j + 1)))

/-- One iteration of the outer length loop:
`for i in range(n - l): j = i + l; ...` -/
def fillStep (y : List Char) (B : List Char → Cost) (T : Nat → Nat → Cost) (l : Nat) :
    Nat → Nat → Cost :=
  (List.range (y.length - l)).foldl
    (fun T' i => update2 T' i (i + l) (cellVal y B T' i (i + l))) T

/-- The table after the loop `for l in range(1, n + 1)` has run its first
`m` iterations (so after processing substring lengths `1 .. m`). -/
def myFillUpTo (y : List Char) (B : List Char → Cost) (m : Nat) : Nat → Nat → Cost :=
  (List.range' 1 m).foldl (fillStep y B) (baseT y B)

/-- `my_approach(y, B)` from `src/Q1.py`.  The final statement
`return dp[0][n - 1]` indexes `dp[0]` of an empty list when `n = 0`
(an `IndexError` in Python), modelled by `none`. -/
def my_approach (y : List Char) (B : List Char → Cost) : Option Cost :=
  let n := y.length
  let dp := myFillUpTo y B n
  if n = 0 then none else some (dp 0 (n - 1))

/-! ### `optimal_approach` (prefix DP, `src/Q1.py` lines 41–57) -/

/-- `dp = [float('inf')] * (n + 1); dp[0] = 0`. -/
def optInit : Nat → Cost :=
  fun k => if k = 0 then 0 else ⊤

/-- One iteration of the outer loop:
`for j in range(i): dp[i] = min(dp[i], dp[j] + B(y[j:i]))`. -/
def optStep (y : List Char) (B : List Char → Cost) (d : Nat → Cost) (i : Nat) : Nat → Cost :=
  (List.range i).foldl
    (fun d' j => update1 d' i (min (d' i) (d' j + B (slice y j i)))) d

/-- The array after the loop `for i in range(1, n + 1)` has run its first
`m` iterations. -/
def optUpTo (y : List Char) (B : List Char → Cost) (m : Nat) : Nat → Cost :=
  (List.range' 1 m).foldl (optStep y B) optInit

/-- `optimal_approach(y, B)` from `src/Q1.py`: run all `n` iterations and
`return dp[n]`. -/
def optimal_approach (y : List Char) (B : List Char → Cost) : Cost :=
  optUpTo y B y.length y.length

/-! ### Arguments passed to the black-box function

The loop bounds of both solvers do not depend on the DP tables, so the
sequence of arguments each solver passes to `B` can be read off the
source directly: `my_approach` calls `B(y[i])` for `i in range(n)` and
then `B(y[i:j+1])` with `j = i + l` for `l in range(1, n+1)`,
`i in range(n-l)`; `optimal_approach` calls `B(y[j:i])` for
`i in range(1, n+1)`, `j in range(i)`. -/

/-- All arguments `my_approach(y, B)` passes to `B`, in call order. -/
def myCallArgs (y : List Char) : List (List Char) :=
  ((List.range y.length).map (fun i => [charAt y i])) ++
    ((List.range' 1 y.length).flatMap
      (fun l => (List.range (y.length - l)).map (fun i => slice y i (i + l + 1))))

/-- All arguments `optimal_approach(y, B)` passes to `B`, in call order. -/
def optCallArgs (y : List Char) : List (List Char) :=
  (List.range' 1 y.length).flatMap
    (fun i => (List.range i).map (fun j => slice y j i))

/-! ### Partitions and the specification of the minimum -/

/-- Total cost of a candidate partition: the sum of `B` over its pieces. -/
def partCost (B : List Char → Cost) (P : List (List Char)) : Cost :=
  (P.map B).sum

/-- `P` is a partition of `y` into contiguous, non-overlapping, non-empty
pieces covering all of `y`. -/
def IsPartition (P : List (List Char)) (y : List Char) : Prop :=
  P.flatten = y ∧ ∀ p ∈ P, p ≠ []

/-- `c` is the minimum, over all partitions of `y`, of the total cost. -/
def IsMinCost (y : List Char) (B : List Char → Cost) (c : Cost) : Prop :=
  (∃ P, IsPartition P y ∧ partCost B P = c) ∧
    ∀ P, IsPartition P y → c ≤ partCost B P

/-- `s` is a contiguous sub-segment (substring) of `y`. -/
def SubSeg (s y : List Char) : Prop :=
  ∃ a b, y = a ++ s ++ b

/-! ### The two recurrences, defined by structural recursion -/

/-- The list `[dp[0], ..., dp[i]]` of prefix-DP values defined by the
recurrence `dp[i] = min_{0 ≤ j < i} (dp[j] + B(y[j:i]))`, `dp[0] = 0`. -/
def prefVec (y : List Char) (B : List Char → Cost) : Nat → List Cost
  | 0 => [0]
  | i + 1 =>
    prefVec y B i ++ [(List.range (i + 1)).foldl
      (fun a j => min a ((prefVec y B i).getD j ⊤ + B (slice y j (i + 1)))) ⊤]

/-- The prefix-DP value `dp[i]`. -/
def prefCost (y : List Char) (B : List Char → Cost) (i : Nat) : Cost :=
  (prefVec y B i).getD i ⊤

/-- The interval-DP table after all substring lengths `≤ l` have been
resolved: `ivTab y B l i j` is the settled value of `dp[i][j]` when
`j - i ≤ l`, and the not-yet-written value otherwise. -/
def ivTab (y : List Char) (B : List Char → Cost) : Nat → Nat → Nat → Cost
  | 0 => fun i j => if i = j ∧ i < y.length then B [charAt y i] else ⊤
  | l + 1 => fun i j =>
      if j = i + (l + 1) ∧ j < y.length then
        (List.range' i (l + 1)).foldl
          (fun a k => min a (ivTab y B l i k + ivTab y B l (k + 1) j))
          (B (slice y i (j + 1)))
      else ivTab y B l i j

/-! ### Generic helpers -/

theorem update1_eval (d : Nat → Cost) (a : Nat) (v : Cost) (k : Nat) :
    update1 d a v k = if k = a then v else d k := rfl

theorem update2_eval (T : Nat → Nat → Cost) (a b : Nat) (v : Cost) (i j : Nat) :
    update2 T a b v i j = if i = a ∧ j = b then v else T i j := rfl

theorem foldl_min_le_init {α : Type} [LinearOrder α] (l : List α) (a : α) :
    l.foldl min a ≤ a := by
  induction l generalizing a with
  | nil => exact le_refl a
  | cons b l ih =>
    simp only [List.foldl_cons]
    exact le_trans (ih (min a b)) (min_le_left a b)

theorem foldl_min_le_mem {α : Type} [LinearOrder α] {l : List α} {x : α}
    (hx : x ∈ l) (a : α) : l.foldl min a ≤ x := by
  induction l generalizing a with
  | nil => cases hx
  | cons b l ih =>
    simp only [List.foldl_cons]
    rcases List.mem_cons.1 hx with h | h
    · subst h
      exact le_trans (foldl_min_le_init l (min a x)) (min_le_right a x)
    · exact ih h (min a b)

theorem foldl_min_eq_init_or_mem {α : Type} [LinearOrder α] (l : List α) (a : α) :
    l.foldl min a = a ∨ l.foldl min a ∈ l := by
  induction l generalizing a with
  | nil => exact Or.inl rfl
  | cons b l ih =>
    simp only [List.foldl_cons]
    rcases ih (min a b) with h | h
    · rcases min_choice a b with h2 | h2
      · rw [h, h2]; exact Or.inl rfl
      · rw [h, h2]; exact Or.inr (List.mem_cons_self b l)
    · exact Or.inr (List.mem_cons_of_mem b h)

/-! ### Facts about `slice` -/

theorem slice_length (y : List Char) (a b : Nat) :
    (slice y a b).length = min (b - a) (y.length - a) := by
  simp [slice]

theorem slice_ne_nil {y : List Char} {a b : Nat} (h1 : a < b) (h2 : a < y.length) :
    slice y a b ≠ [] := by
  rw [← List.length_pos, slice_length]
  omega

theorem slice_append {y : List Char} {a b c : Nat} (h1 : a ≤ b) (h2 : b ≤ c) :
    slice y a b ++ slice y b c = slice y a c := by
  unfold slice
  have hd : (y.drop a).drop (b - a) = y.drop b := by
    rw [List.drop_drop]
    congr 1
    omega
  rw [← hd, ← List.take_add]
  congr 1
  omega

theorem slice_zero_eq_take (y : List Char) (b : Nat) : slice y 0 b = y.take b := by
  simp [slice]

theorem slice_full (y : List Char) : slice y 0 y.length = y := by
  simp [slice]

theorem charAt_eq_getElem {y : List Char} {i : Nat} (h : i < y.length) :
    charAt y i = y[i] := by
  simp [charAt, List.getElem?_eq_getElem h]

theorem slice_one {y : List Char} {i : Nat} (h : i < y.length) :
    slice y i (i + 1) = [charAt y i] := by
  have h1 : i + 1 - i = 1 := by omega
  rw [slice, h1, List.drop_eq_getElem_cons h, charAt_eq_getElem h]
  rfl

theorem slice_is_subseg (y : List Char) (a b : Nat) : SubSeg (slice y a b) y := by
  refine ⟨y.take a, (y.drop a).drop (b - a), ?_⟩
  rw [slice, List.append_assoc, List.take_append_drop, List.take_append_drop]

/-! ### The prefix DP loop computes `prefCost` -/

theorem prefCost_zero (y : List Char) (B : List Char → Cost) : prefCost y B 0 = 0 := rfl

theorem prefVec_length (y : List Char) (B : List Char → Cost) (i : Nat) :
    (prefVec y B i).length = i + 1 := by
  induction i with
  | zero => rfl
  | succ i ih => simp [prefVec, ih]

theorem prefVec_getD (y : List Char) (B : List Char → Cost) :
    ∀ i j, j ≤ i → (prefVec y B i).getD j ⊤ = prefCost y B j := by
  intro i
  induction i with
  | zero =>
    intro j hj
    have hj0 : j = 0 := by omega
    subst hj0
    rfl
  | succ i ih =>
    intro j hj
    rcases Nat.lt_or_ge j (i + 1) with h | h
    · have hlen : j < (prefVec y B i).length := by rw [prefVec_length]; omega
      simp only [prefVec]
      rw [List.getD_append _ _ _ _ hlen]
      exact ih j (by omega)
    · have hj1 : j = i + 1 := by omega
      subst hj1
      rfl

theorem prefCost_succ (y : List Char) (B : List Char → Cost) (i : Nat) :
    prefCost y B (i + 1)
      = (List.range (i + 1)).foldl
          (fun a j => min a (prefCost y B j + B (slice y j (i + 1)))) ⊤ := by
  have hlen : (prefVec y B i).length = i + 1 := prefVec_length y B i
  rw [prefCost]
  simp only [prefVec]
  rw [List.getD_append_right _ _ _ _ (by simp [hlen]), hlen, Nat.sub_self]
  exact List.foldl_ext _ _ _ (fun a j hj => by
    rw [prefVec_getD y B i j (Nat.lt_succ_iff.mp (List.mem_range.1 hj))])

theorem optStep_foldl (c : Nat → Cost) (i : Nat) :
    ∀ (js : List Nat), i ∉ js → ∀ (d : Nat → Cost) (k : Nat),
      (js.foldl (fun d' j => update1 d' i (min (d' i) (d' j + c j))) d) k
        = if k = i then js.foldl (fun a j => min a (d j + c j)) (d i) else d k := by
  intro js
  induction js with
  | nil =>
    intro _ d k
    simp only [List.foldl_nil]
    split_ifs with h
    · rw [h]
    · rfl
  | cons j js ih =>
    intro hne d k
    have hns : i ∉ js := fun h => hne (List.mem_cons_of_mem j h)
    simp only [List.foldl_cons]
    rw [ih hns]
    split_ifs with h
    · rw [update1_eval, if_pos rfl]
      exact List.foldl_ext _ _ _ (fun a j' hj' => by
        have hne' : j' ≠ i := fun hh => hns (hh ▸ hj')
        rw [update1_eval, if_neg hne'])
    · rw [update1_eval, if_neg h]

theorem optUpTo_eval (y : List Char) (B : List Char → Cost) :
    ∀ m k, optUpTo y B m k = if k ≤ m then prefCost y B k else ⊤ := by
  intro m
  induction m with
  | zero =>
    intro k
    simp only [optUpTo, List.range', List.foldl_nil, optInit]
    split_ifs with h1 h2
    · subst h1; rfl
    · omega
    · omega
    · rfl
  | succ m ih =>
    intro k
    have hsplit : List.range' 1 (m + 1) = List.range' 1 m ++ [m + 1] := by
      rw [List.range'_1_concat, Nat.add_comm 1 m]
    rw [optUpTo, hsplit, List.foldl_append]
    rw [show (List.range' 1 m).foldl (optStep y B) optInit = optUpTo y B m from rfl]
    simp only [List.foldl_cons, List.foldl_nil, optStep]
    rw [optStep_foldl (fun j => B (slice y j (m + 1))) (m + 1) (List.range (m + 1))
      (by simp [List.mem_range]) (optUpTo y B m) k]
    by_cases hk : k = m + 1
    · subst hk
      rw [if_pos rfl, if_pos (le_refl _)]
      rw [ih (m + 1), if_neg (by omega), prefCost_succ]
      exact List.foldl_ext _ _ _ (fun a j hj => by
        rw [ih j, if_pos (Nat.lt_succ_iff.mp (List.mem_range.1 hj))])
    · rw [if_neg hk, ih k]
      split_ifs with h1 h2
      · rfl
      · omega
      · omega
      · rfl

theorem optimal_eq_prefCost (y : List Char) (B : List Char → Cost) :
    optimal_approach y B = prefCost y B y.length := by
  rw [optimal_approach, optUpTo_eval]
  simp

/-! ### The interval DP loop computes `ivTab` -/

theorem ivTab_zero (y : List Char) (B : List Char → Cost) (i j : Nat) :
    ivTab y B 0 i j = if i = j ∧ i < y.length then B [charAt y i] else ⊤ := rfl

theorem ivTab_succ (y : List Char) (B : List Char → Cost) (l i j : Nat) :
    ivTab y B (l + 1) i j
      = if j = i + (l + 1) ∧ j < y.length then
          (List.range' i (l + 1)).foldl
            (fun a k => min a (ivTab y B l i k + ivTab y B l (k + 1) j))
            (B (slice y i (j + 1)))
        else ivTab y B l i j := rfl

theorem baseT_eval (y : List Char) (B : List Char → Cost) :
    ∀ (m i j : Nat),
      ((List.range m).foldl (fun T i' => update2 T i' i' (B [charAt y i']))
          (fun _ _ => (⊤ : Cost))) i j
        = if i = j ∧ i < m then B [charAt y i] else ⊤ := by
  intro m
  induction m with
  | zero => intro i j; simp
  | succ m ih =>
    intro i j
    rw [List.range_succ, List.foldl_append]
    simp only [List.foldl_cons, List.foldl_nil]
    rw [update2_eval]
    by_cases h : i = m ∧ j = m
    · rw [if_pos h]
      obtain ⟨h1, h2⟩ := h
      rw [h1, h2]
      rw [if_pos ⟨rfl, Nat.lt_succ_self m⟩]
    · rw [if_neg h, ih i j]
      by_cases h2 : i = j ∧ i < m
      · rw [if_pos h2, if_pos ⟨h2.1, by omega⟩]
      · rw [if_neg h2, if_neg (by omega)]

theorem fill_inner_eval (y : List Char) (B : List Char → Cost) (m : Nat) :
    ∀ (cnt : Nat), cnt ≤ y.length - (m + 1) → ∀ i j,
      ((List.range cnt).foldl
          (fun T' i' => update2 T' i' (i' + (m + 1)) (cellVal y B T' i' (i' + (m + 1))))
          (ivTab y B m)) i j
        = if j = i + (m + 1) ∧ i < cnt then ivTab y B (m + 1) i j
          else ivTab y B m i j := by
  intro cnt
  induction cnt with
  | zero =>
    intro _ i j
    simp only [List.range_zero, List.foldl_nil]
    rw [if_neg (by omega)]
  | succ cnt ih =>
    intro hcnt i j
    rw [List.range_succ, List.foldl_append]
    simp only [List.foldl_cons, List.foldl_nil]
    rw [update2_eval]
    by_cases h : i = cnt ∧ j = cnt + (m + 1)
    · rw [if_pos h]
      obtain ⟨h1, h2⟩ := h
      rw [h1, h2]
      rw [if_pos ⟨rfl, Nat.lt_succ_self cnt⟩]
      have hsub : cnt + (m + 1) - cnt = m + 1 := by omega
      rw [cellVal, hsub]
      have hn : cnt + (m + 1) < y.length := by omega
      rw [ivTab_succ, if_pos ⟨rfl, hn⟩]
      exact List.foldl_ext _ _ _ (fun a k hk => by
        have hk' := List.mem_range'_1.1 hk
        rw [ih (by omega) cnt k, if_neg (by omega),
          ih (by omega) (k + 1) (cnt + (m + 1)), if_neg (by omega)])
    · rw [if_neg h, ih (by omega) i j]
      by_cases h2 : j = i + (m + 1) ∧ i < cnt
      · rw [if_pos h2, if_pos ⟨h2.1, by omega⟩]
      · rw [if_neg h2, if_neg (by omega)]

theorem myFillUpTo_eq_ivTab (y : List Char) (B : List Char → Cost) :
    ∀ m i j, myFillUpTo y B m i j = ivTab y B m i j := by
  intro m
  induction m with
  | zero =>
    intro i j
    rw [myFillUpTo]
    simp only [List.range', List.foldl_nil]
    rw [baseT, baseT_eval, ivTab_zero]
  | succ m ih =>
    intro i j
    have hsplit : List.range' 1 (m + 1) = List.range' 1 m ++ [m + 1] := by
      rw [List.range'_1_concat, Nat.add_comm 1 m]
    rw [myFillUpTo, hsplit, List.foldl_append]
    rw [show (List.range' 1 m).foldl (fillStep y B) (baseT y B) = myFillUpTo y B m from rfl]
    simp only [List.foldl_cons, List.foldl_nil]
    rw [fillStep]
    have hfun : myFillUpTo y B m = ivTab y B m :=
      funext (fun i' => funext (fun j' => ih i' j'))
    rw [hfun, fill_inner_eval y B m (y.length - (m + 1)) (le_refl _) i j]
    by_cases h : j = i + (m + 1) ∧ i < y.length - (m + 1)
    · rw [if_pos h]
    · rw [if_neg h, ivTab_succ, if_neg (by omega)]

theorem ivTab_stable (y : List Char) (B : List Char → Cost) :
    ∀ (e d i j : Nat), j - i ≤ d → ivTab y B (d + e) i j = ivTab y B d i j := by
  intro e
  induction e with
  | zero => intro d i j _; rfl
  | succ e ih =>
    intro d i j h
    have he : d + (e + 1) = (d + e) + 1 := by omega
    rw [he, ivTab_succ, if_neg (by omega), ih d i j h]

theorem ivTab_stable' (y : List Char) (B : List Char → Cost) {d d' i j : Nat}
    (h : j - i ≤ d) (h2 : d ≤ d') : ivTab y B d' i j = ivTab y B d i j := by
  have hd : d' = d + (d' - d) := by omega
  rw [hd]
  exact ivTab_stable y B (d' - d) d i j h

/-! ### Partition toolkit -/

theorem partCost_nil (B : List Char → Cost) : partCost B [] = 0 := rfl

theorem partCost_cons (B : List Char → Cost) (p : List Char) (P : List (List Char)) :
    partCost B (p :: P) = B p + partCost B P := by
  simp [partCost]

theorem partCost_append (B : List Char → Cost) (P Q : List (List Char)) :
    partCost B (P ++ Q) = partCost B P + partCost B Q := by
  simp [partCost]

theorem partCost_singleton (B : List Char → Cost) (p : List Char) :
    partCost B [p] = B p := by
  simp [partCost]

theorem isPartition_nil : IsPartition [] [] :=
  ⟨rfl, fun p hp => absurd hp (List.not_mem_nil p)⟩

theorem isPartition_nil_iff {P : List (List Char)} (h : IsPartition P []) : P = [] := by
  obtain ⟨hf, hne⟩ := h
  rcases P with _ | ⟨p, P'⟩
  · rfl
  · exfalso
    rw [List.flatten_cons] at hf
    exact hne p (List.mem_cons_self p P') (List.append_eq_nil.1 hf).1

theorem isPartition_singleton {y : List Char} (hy : y ≠ []) : IsPartition [y] y :=
  ⟨by simp, fun p hp => by rw [List.mem_singleton.1 hp]; exact hy⟩

theorem partition_of_singleton {c : Char} {P : List (List Char)}
    (h : IsPartition P [c]) : P = [[c]] := by
  obtain ⟨hf, hne⟩ := h
  rcases P with _ | ⟨p, P'⟩
  · exact absurd hf (by simp)
  · rw [List.flatten_cons] at hf
    rcases p with _ | ⟨a, p'⟩
    · exact absurd rfl (hne [] (List.mem_cons_self _ _))
    · rw [List.cons_append] at hf
      injection hf with h1 h2
      have h3 := List.append_eq_nil.1 h2
      have hP' : P' = [] :=
        isPartition_nil_iff ⟨h3.2, fun q hq => hne q (List.mem_cons_of_mem _ hq)⟩
      rw [h1, h3.1, hP']

/-! ### Fold-min helpers specialised to an indexed family -/

theorem foldl_minf_le_init {α ι : Type} [LinearOrder α] (f : ι → α) (l : List ι) (a : α) :
    l.foldl (fun x k => min x (f k)) a ≤ a := by
  rw [← List.foldl_map]
  exact foldl_min_le_init _ a

theorem foldl_minf_le_mem {α ι : Type} [LinearOrder α] (f : ι → α) {l : List ι} {j : ι}
    (hj : j ∈ l) (a : α) : l.foldl (fun x k => min x (f k)) a ≤ f j := by
  rw [← List.foldl_map]
  exact foldl_min_le_mem (List.mem_map_of_mem f hj) a

theorem foldl_minf_cases {α ι : Type} [LinearOrder α] (f : ι → α) (l : List ι) (a : α) :
    l.foldl (fun x k => min x (f k)) a = a
      ∨ ∃ j ∈ l, l.foldl (fun x k => min x (f k)) a = f j := by
  rcases foldl_min_eq_init_or_mem (l.map f) a with h | h
  · rw [List.foldl_map] at h
    exact Or.inl h
  · rcases List.mem_map.1 h with ⟨j, hj, hj2⟩
    rw [List.foldl_map] at hj2
    exact Or.inr ⟨j, hj, hj2.symm⟩

/-! ### The prefix recurrence computes the minimum partition cost -/

theorem prefCost_min (y : List Char) (B : List Char → Cost) :
    ∀ i, i ≤ y.length → IsMinCost (y.take i) B (prefCost y B i) := by
  intro i
  induction i using Nat.strong_induction_on with
  | _ i ih =>
    match i with
    | 0 =>
      intro _
      constructor
      · exact ⟨[], by rw [List.take_zero]; exact isPartition_nil, rfl⟩
      · intro P hP
        have hP0 : P = [] := isPartition_nil_iff (by rwa [List.take_zero] at hP)
        subst hP0
        exact le_refl _
    | i + 1 =>
      intro hle
      have htake : (y.take (i + 1)).length = i + 1 := by
        rw [List.length_take]
        omega
      constructor
      · -- achievability: some partition attains prefCost y B (i+1)
        have hcase := foldl_minf_cases
          (fun j => prefCost y B j + B (slice y j (i + 1))) (List.range (i + 1)) (⊤ : Cost)
        have hex : ∃ j, j ≤ i ∧
            prefCost y B (i + 1) = prefCost y B j + B (slice y j (i + 1)) := by
          rcases hcase with h | ⟨j, hj, hval⟩
          · refine ⟨i, le_refl i, ?_⟩
            have hle2 : (List.range (i + 1)).foldl
                (fun x k => min x (prefCost y B k + B (slice y k (i + 1)))) (⊤ : Cost)
                  ≤ prefCost y B i + B (slice y i (i + 1)) :=
              foldl_minf_le_mem _ (List.mem_range.2 (by omega)) ⊤
            rw [prefCost_succ, h]
            rw [h] at hle2
            exact (le_antisymm le_top hle2).symm
          · exact ⟨j, Nat.lt_succ_iff.mp (List.mem_range.1 hj),
              by rw [prefCost_succ]; exact hval⟩
        obtain ⟨j, hji, hval⟩ := hex
        obtain ⟨Q, hQ, hQcost⟩ := (ih j (by omega) (by omega)).1
        refine ⟨Q ++ [slice y j (i + 1)], ⟨?_, ?_⟩, ?_⟩
        · rw [List.flatten_append, List.flatten_cons, List.flatten_nil, List.append_nil,
            hQ.1, ← slice_zero_eq_take, ← slice_zero_eq_take,
            slice_append (by omega) (by omega)]
        · intro p hp
          rcases List.mem_append.1 hp with hp1 | hp1
          · exact hQ.2 p hp1
          · rw [List.mem_singleton.1 hp1]
            exact slice_ne_nil (by omega) (by omega)
        · rw [partCost_append, partCost_singleton, hQcost, hval]
      · -- lower bound: prefCost is below the cost of every partition
        intro P hP
        obtain ⟨hf, hne⟩ := hP
        have hPne : P ≠ [] := by
          intro h0
          rw [h0, List.flatten_nil] at hf
          have hlen := congrArg List.length hf
          rw [List.length_nil, htake] at hlen
          omega
        rcases List.eq_nil_or_concat P with h0 | ⟨Q, p, hQp⟩
        · exact absurd h0 hPne
        rw [List.concat_eq_append] at hQp
        subst hQp
        rw [List.flatten_append, List.flatten_cons, List.flatten_nil, List.append_nil] at hf
        have hp : p ≠ [] := hne p (by simp)
        have hplen : 0 < p.length := List.length_pos.2 hp
        have hlen2 : Q.flatten.length + p.length = i + 1 := by
          have hlen := congrArg List.length hf
          rw [List.length_append, htake] at hlen
          exact hlen
        have hjle : Q.flatten.length ≤ i := by omega
        have hQf : Q.flatten = y.take Q.flatten.length := by
          have h1 : (Q.flatten ++ p).take Q.flatten.length = Q.flatten :=
            List.take_left' rfl
          rw [hf, List.take_take, min_eq_left (by omega)] at h1
          exact h1.symm
        have hpslice : p = slice y Q.flatten.length (i + 1) := by
          have h2 : (Q.flatten ++ p).drop Q.flatten.length = p :=
            List.drop_left' rfl
          rw [hf, List.drop_take] at h2
          exact h2.symm
        have hQpart : IsPartition Q (y.take Q.flatten.length) :=
          ⟨hQf, fun q hq => hne q (List.mem_append_left _ hq)⟩
        have hIH := (ih Q.flatten.length (by omega) (by omega)).2 Q hQpart
        rw [prefCost_succ]
        refine le_trans
          (foldl_minf_le_mem (fun j => prefCost y B j + B (slice y j (i + 1)))
            (show Q.flatten.length ∈ List.range (i + 1) from List.mem_range.2 (by omega)) ⊤) ?_
        rw [partCost_append, partCost_singleton, ← hpslice]
        exact add_le_add_right hIH (B p)

/-! ### The interval recurrence computes the minimum partition cost -/

theorem ivTab_min (y : List Char) (B : List Char → Cost) :
    ∀ l i j, i ≤ j → j < y.length → j - i = l →
      IsMinCost (slice y i (j + 1)) B (ivTab y B l i j) := by
  intro l
  induction l using Nat.strong_induction_on with
  | _ l ih =>
    match l with
    | 0 =>
      intro i j hij hjn hl
      have hij2 : j = i := by omega
      subst hij2
      rw [ivTab_zero, if_pos ⟨rfl, hjn⟩, slice_one hjn]
      constructor
      · exact ⟨[[charAt y j]], isPartition_singleton (by simp),
          by rw [partCost_singleton]⟩
      · intro P hP
        rw [partition_of_singleton hP, partCost_singleton]
    | d + 1 =>
      intro i j hij hjn hl
      have hcond : j = i + (d + 1) := by omega
      rw [ivTab_succ, if_pos ⟨hcond, hjn⟩]
      have hfold :
          (List.range' i (d + 1)).foldl
            (fun a k => min a (ivTab y B d i k + ivTab y B d (k + 1) j))
            (B (slice y i (j + 1)))
            = (List.range' i (d + 1)).foldl
              (fun a k => min a
                (ivTab y B (k - i) i k + ivTab y B (j - (k + 1)) (k + 1) j))
              (B (slice y i (j + 1))) :=
        List.foldl_ext _ _ _ (fun a k hk => by
          have hk' := List.mem_range'_1.1 hk
          rw [ivTab_stable' y B (le_refl (k - i)) (by omega),
            ivTab_stable' y B (le_refl (j - (k + 1))) (by omega)])
      constructor
      · -- achievability
        rcases foldl_minf_cases
            (fun k => ivTab y B (k - i) i k + ivTab y B (j - (k + 1)) (k + 1) j)
            (List.range' i (d + 1)) (B (slice y i (j + 1))) with hc | ⟨k, hk, hval⟩
        · refine ⟨[slice y i (j + 1)],
            isPartition_singleton (slice_ne_nil (by omega) (by omega)), ?_⟩
          rw [partCost_singleton, hfold, hc]
        · have hk' := List.mem_range'_1.1 hk
          obtain ⟨P1, hP1, hP1c⟩ :=
            (ih (k - i) (by omega) i k (by omega) (by omega) rfl).1
          obtain ⟨P2, hP2, hP2c⟩ :=
            (ih (j - (k + 1)) (by omega) (k + 1) j (by omega) (by omega) rfl).1
          refine ⟨P1 ++ P2, ⟨?_, ?_⟩, ?_⟩
          · rw [List.flatten_append, hP1.1, hP2.1,
              slice_append (by omega) (by omega)]
          · intro p hp
            rcases List.mem_append.1 hp with h1 | h1
            · exact hP1.2 p h1
            · exact hP2.2 p h1
          · rw [partCost_append, hP1c, hP2c, hfold, hval]
      · -- lower bound
        intro P hP
        obtain ⟨hfflat, hne⟩ := hP
        have hslen : (slice y i (j + 1)).length = j + 1 - i := by
          rw [slice_length]
          omega
        rcases P with _ | ⟨p, P'⟩
        · exfalso
          have hlen := congrArg List.length hfflat
          rw [List.flatten_nil, List.length_nil, hslen] at hlen
          omega
        rw [List.flatten_cons] at hfflat
        have hp : p ≠ [] := hne p (List.mem_cons_self _ _)
        have hplen : 0 < p.length := List.length_pos.2 hp
        have hlen2 : p.length + P'.flatten.length = j + 1 - i := by
          have hlen := congrArg List.length hfflat
          rw [List.length_append, hslen] at hlen
          exact hlen
        have hpfx : p = (slice y i (j + 1)).take p.length := by
          rw [← hfflat]
          exact (List.take_left p P'.flatten).symm
        have hps : p = slice y i (i + p.length) := by
          have h1 : i + p.length - i = p.length := by omega
          rw [slice, h1]
          rw [slice, List.take_take, min_eq_left (by omega)] at hpfx
          exact hpfx
        have hsfx : P'.flatten = slice y (i + p.length) (j + 1) := by
          have h2 : (slice y i (j + 1)).drop p.length = P'.flatten := by
            rw [← hfflat]
            exact List.drop_left' rfl
          rw [← h2, slice, List.drop_take, List.drop_drop, slice]
          congr 1
          omega
        rcases P' with _ | ⟨q, Q⟩
        · -- the whole interval is a single piece
          rw [List.flatten_nil, List.append_nil] at hfflat
          have hval : partCost B [p] = B (slice y i (j + 1)) := by
            rw [partCost_singleton, hfflat]
          rw [hval]
          exact foldl_minf_le_init _ _ _
        · -- the first piece is proper; split at its right end
          have hq : q ≠ [] := hne q (List.mem_cons_of_mem _ (List.mem_cons_self _ _))
          have hqlen : 0 < (q :: Q).flatten.length := by
            rw [List.flatten_cons, List.length_append]
            have := List.length_pos.2 hq
            omega
          have hm : p.length ≤ j - i := by omega
          have hkmem : i + p.length - 1 ∈ List.range' i (d + 1) :=
            List.mem_range'_1.2 ⟨by omega, by omega⟩
          refine le_trans (foldl_minf_le_mem
            (fun k => ivTab y B d i k + ivTab y B d (k + 1) j)
            hkmem (B (slice y i (j + 1)))) ?_
          have hk1 : i + p.length - 1 + 1 = i + p.length := by omega
          rw [hk1,
            ivTab_stable' y B (le_refl (i + p.length - 1 - i)) (by omega),
            ivTab_stable' y B (le_refl (j - (i + p.length))) (by omega)]
          have l1 := (ih (i + p.length - 1 - i) (by omega) i (i + p.length - 1)
            (by omega) (by omega) rfl).2 [p]
            (by rw [hk1, ← hps]; exact isPartition_singleton hp)
          have l2 := (ih (j - (i + p.length)) (by omega) (i + p.length) j
            (by omega) (by omega) rfl).2 (q :: Q)
            ⟨hsfx, fun r hr => hne r (List.mem_cons_of_mem _ hr)⟩
          rw [partCost_singleton] at l1
          rw [partCost_cons]
          exact add_le_add l1 l2

/-! ### Bridging lemmas: what each solver returns -/

theorem IsMinCost_unique {y : List Char} {B : List Char → Cost} {c1 c2 : Cost}
    (h1 : IsMinCost y B c1) (h2 : IsMinCost y B c2) : c1 = c2 := by
  obtain ⟨⟨P1, hP1, hc1⟩, hlb1⟩ := h1
  obtain ⟨⟨P2, hP2, hc2⟩, hlb2⟩ := h2
  apply le_antisymm
  · rw [← hc2]
    exact hlb1 P2 hP2
  · rw [← hc1]
    exact hlb2 P1 hP1

theorem optimal_min (y : List Char) (B : List Char → Cost) :
    IsMinCost y B (optimal_approach y B) := by
  rw [optimal_eq_prefCost]
  have h := prefCost_min y B y.length (le_refl _)
  rwa [List.take_length] at h

theorem my_result (y : List Char) (B : List Char → Cost) (hy : y ≠ []) :
    my_approach y B = some (ivTab y B (y.length - 1) 0 (y.length - 1)) := by
  have hn : 0 < y.length := List.length_pos.2 hy
  have h0 : my_approach y B
      = if y.length = 0 then none
        else some (myFillUpTo y B y.length 0 (y.length - 1)) := rfl
  rw [h0, if_neg (by omega), myFillUpTo_eq_ivTab,
    ivTab_stable' y B (show y.length - 1 - 0 ≤ y.length - 1 from by omega) (by omega)]

theorem my_min (y : List Char) (B : List Char → Cost) (hy : y ≠ []) :
    ∃ r, my_approach y B = some r ∧ IsMinCost y B r := by
  have hn : 0 < y.length := List.length_pos.2 hy
  refine ⟨ivTab y B (y.length - 1) 0 (y.length - 1), my_result y B hy, ?_⟩
  have h := ivTab_min y B (y.length - 1) 0 (y.length - 1) (by omega) (by omega) rfl
  have hs : y.length - 1 + 1 = y.length := by omega
  rw [hs, slice_full] at h
  exact h

theorem my_eq_optimal (y : List Char) (B : List Char → Cost) (hy : y ≠ []) :
    my_approach y B = some (optimal_approach y B) := by
  obtain ⟨r, hr, hmin⟩ := my_min y B hy
  rw [hr, IsMinCost_unique hmin (optimal_min y B)]

theorem partCost_ne_top {B : List Char → Cost} {P : List (List Char)}
    (h : ∀ p ∈ P, B p ≠ ⊤) : partCost B P ≠ ⊤ := by
  induction P with
  | nil =>
    rw [partCost_nil]
    simp
  | cons p P ihp =>
    rw [partCost_cons]
    intro hc
    rcases WithTop.add_eq_top.1 hc with h1 | h1
    · exact h p (List.mem_cons_self _ _) h1
    · exact ihp (fun q hq => h q (List.mem_cons_of_mem _ hq)) h1

theorem partCost_eq_top {B : List Char → Cost} {P : List (List Char)} {p : List Char}
    (hp : p ∈ P) (h : B p = ⊤) : partCost B P = ⊤ := by
  induction P with
  | nil => cases hp
  | cons q P ihp =>
    rw [partCost_cons]
    rcases List.mem_cons.1 hp with h1 | h1
    · rw [← h1, h, WithTop.top_add]
    · rw [ihp h1, WithTop.add_top]

/-! ### The call-argument lists are complete

Each solver's result depends on `B` only through its values on the
enumerated call arguments, so `myCallArgs`/`optCallArgs` cover every call
that can influence the result. -/

theorem ivTab_congr (y : List Char) {B1 B2 : List Char → Cost}
    (h : ∀ s ∈ myCallArgs y, B1 s = B2 s) :
    ∀ l i j, ivTab y B1 l i j = ivTab y B2 l i j := by
  intro l
  induction l with
  | zero =>
    intro i j
    rw [ivTab_zero, ivTab_zero]
    by_cases hc : i = j ∧ i < y.length
    · have harg : [charAt y i] ∈ myCallArgs y :=
        List.mem_append_left _ (List.mem_map.2 ⟨i, List.mem_range.2 hc.2, rfl⟩)
      rw [if_pos hc, if_pos hc, h _ harg]
    · rw [if_neg hc, if_neg hc]
  | succ l ih =>
    intro i j
    rw [ivTab_succ, ivTab_succ]
    by_cases hc : j = i + (l + 1) ∧ j < y.length
    · have harg : slice y i (j + 1) ∈ myCallArgs y := by
        refine List.mem_append_right _ (List.mem_flatMap.2
          ⟨l + 1, List.mem_range'_1.2 ⟨by omega, by omega⟩,
            List.mem_map.2 ⟨i, List.mem_range.2 (by omega), ?_⟩⟩)
        rw [hc.1]
      rw [if_pos hc, if_pos hc, h _ harg]
      exact List.foldl_ext _ _ _ (fun a k hk => by rw [ih i k, ih (k + 1) j])
    · rw [if_neg hc, if_neg hc, ih i j]

theorem my_approach_congr (y : List Char) (B1 B2 : List Char → Cost)
    (h : ∀ s ∈ myCallArgs y, B1 s = B2 s) :
    my_approach y B1 = my_approach y B2 := by
  have h1 : my_approach y B1
      = if y.length = 0 then none
        else some (myFillUpTo y B1 y.length 0 (y.length - 1)) := rfl
  have h2 : my_approach y B2
      = if y.length = 0 then none
        else some (myFillUpTo y B2 y.length 0 (y.length - 1)) := rfl
  rw [h1, h2, myFillUpTo_eq_ivTab, myFillUpTo_eq_ivTab,
    ivTab_congr y h y.length 0 (y.length - 1)]

theorem prefCost_congr (y : List Char) {B1 B2 : List Char → Cost}
    (h : ∀ s ∈ optCallArgs y, B1 s = B2 s) :
    ∀ i, i ≤ y.length → prefCost y B1 i = prefCost y B2 i := by
  intro i
  induction i using Nat.strong_induction_on with
  | _ i ih =>
    match i with
    | 0 =>
      intro _
      rfl
    | i + 1 =>
      intro hle
      rw [prefCost_succ, prefCost_succ]
      exact List.foldl_ext _ _ _ (fun a j hj => by
        have hj' : j < i + 1 := List.mem_range.1 hj
        have harg : slice y j (i + 1) ∈ optCallArgs y :=
          List.mem_flatMap.2 ⟨i + 1, List.mem_range'_1.2 ⟨by omega, by omega⟩,
            List.mem_map.2 ⟨j, List.mem_range.2 (by omega), rfl⟩⟩
        rw [ih j (by omega) (by omega), h _ harg])

theorem optimal_approach_congr (y : List Char) (B1 B2 : List Char → Cost)
    (h : ∀ s ∈ optCallArgs y, B1 s = B2 s) :
    optimal_approach y B1 = optimal_approach y B2 := by
  rw [optimal_eq_prefCost, optimal_eq_prefCost, prefCost_congr y h y.length (le_refl _)]

/-! ### Claim theorems -/

/-- C1: for every non-empty input string `y` and every cost function `B`,
`my_approach y B` and `optimal_approach y B` return the same value
(`my_approach` returning it inside `some`). -/
theorem C1_solvers_agree (y : List Char) (B : List Char → Cost) (hy : y ≠ []) :
    my_approach y B = some (optimal_approach y B) :=
  my_eq_optimal y B hy

/-- Witness for C1 at the concrete input "ab" with a length-valued cost. -/
theorem C1_solvers_agree_witness :
    my_approach ['a', 'b'] (fun s => ((s.length : ℚ) : Cost))
      = some (optimal_approach ['a', 'b'] (fun s => ((s.length : ℚ) : Cost))) :=
  C1_solvers_agree ['a', 'b'] (fun s => ((s.length : ℚ) : Cost)) (by decide)

/-- C2: for every non-empty string `y` and cost function `B`, each solver
returns the minimum, over all partitions of `y` into one or more contiguous
non-overlapping pieces covering all of `y`, of the sum of `B` over the
pieces. -/
theorem C2_solvers_compute_min (y : List Char) (B : List Char → Cost) (hy : y ≠ []) :
    IsMinCost y B (optimal_approach y B)
      ∧ ∃ r, my_approach y B = some r ∧ IsMinCost y B r :=
  ⟨optimal_min y B, my_min y B hy⟩

/-- Witness for C2 at the concrete input "ab". -/
theorem C2_solvers_compute_min_witness :
    IsMinCost ['a', 'b'] (fun s => ((s.length : ℚ) : Cost))
        (optimal_approach ['a', 'b'] (fun s => ((s.length : ℚ) : Cost)))
      ∧ ∃ r, my_approach ['a', 'b'] (fun s => ((s.length : ℚ) : Cost)) = some r
          ∧ IsMinCost ['a', 'b'] (fun s => ((s.length : ℚ) : Cost)) r :=
  C2_solvers_compute_min ['a', 'b'] (fun s => ((s.length : ℚ) : Cost)) (by decide)

/-- C3 counterexample: on the empty string, `my_approach` does not return 0;
it hits the out-of-range access `dp[0][n-1]` (modelled by `none`), so the
claim that both solvers return 0 on the empty sequence is false. -/
theorem C3_counterexample :
    ¬ (my_approach [] (fun _ => (0 : Cost)) = some 0) := by
  intro h
  rw [show my_approach [] (fun _ => (0 : Cost)) = none from rfl] at h
  exact Option.noConfusion h

/-- C3 amended: on the empty string, `optimal_approach` returns 0, while
`my_approach` lets the indexing fault propagate (no value is returned). -/
theorem C3_empty_input (B : List Char → Cost) :
    my_approach [] B = none ∧ optimal_approach [] B = 0 :=
  ⟨rfl, rfl⟩

/-- C4: for `n ≥ 1`, `my_approach`'s final table satisfies the interval
recurrence (each `dp[i][j]` with `i < j` is the minimum of the unsplit cost
`B (y[i..j])` and `dp[i][k] + dp[k+1][j]` over all split points
`k ∈ [i, j-1]`), the returned result is `dp[0][n-1]`, and an entry for an
interval of length difference `≤ l` is never revised after the iteration
for length `l` (it is identical in every later snapshot `myFillUpTo m`). -/
theorem C4_interval_table (y : List Char) (B : List Char → Cost)
    (hn : 1 ≤ y.length) :
    (∀ i j, i < j → j < y.length →
        myFillUpTo y B y.length i j
          = (List.range' i (j - i)).foldl
              (fun a k => min a
                (myFillUpTo y B y.length i k + myFillUpTo y B y.length (k + 1) j))
              (B (slice y i (j + 1))))
      ∧ my_approach y B = some (myFillUpTo y B y.length 0 (y.length - 1))
      ∧ (∀ l m i j, i ≤ j → j < y.length → j - i ≤ l → l ≤ m →
          myFillUpTo y B m i j = myFillUpTo y B l i j) := by
  refine ⟨?_, ?_, ?_⟩
  · intro i j hij hjn
    have key : ∀ i' j', myFillUpTo y B y.length i' j' = ivTab y B y.length i' j' :=
      myFillUpTo_eq_ivTab y B y.length
    have hd : j - i = (j - i - 1) + 1 := by omega
    rw [key, ivTab_stable' y B (le_refl (j - i)) (by omega), hd, ivTab_succ,
      if_pos ⟨by omega, hjn⟩]
    exact List.foldl_ext _ _ _ (fun a k hk => by
      have hk' := List.mem_range'_1.1 hk
      have e1 : ivTab y B (j - i - 1) i k = ivTab y B (k - i) i k :=
        ivTab_stable' y B (le_refl _) (by omega)
      have e2 : ivTab y B y.length i k = ivTab y B (k - i) i k :=
        ivTab_stable' y B (le_refl _) (by omega)
      have e3 : ivTab y B (j - i - 1) (k + 1) j = ivTab y B (j - (k + 1)) (k + 1) j :=
        ivTab_stable' y B (le_refl _) (by omega)
      have e4 : ivTab y B y.length (k + 1) j = ivTab y B (j - (k + 1)) (k + 1) j :=
        ivTab_stable' y B (le_refl _) (by omega)
      rw [key, key, e1, e2, e3, e4])
  · have h0 : my_approach y B
        = if y.length = 0 then none
          else some (myFillUpTo y B y.length 0 (y.length - 1)) := rfl
    rw [h0, if_neg (by omega)]
  · intro l m i j hij hjn hjl hlm
    rw [myFillUpTo_eq_ivTab, myFillUpTo_eq_ivTab]
    exact ivTab_stable' y B hjl hlm

/-- Witness for C4 at the concrete input "ab". -/
theorem C4_interval_table_witness :
    (∀ i j, i < j → j < (['a', 'b'] : List Char).length →
        myFillUpTo ['a', 'b'] (fun s => ((s.length : ℚ) : Cost)) 2 i j
          = (List.range' i (j - i)).foldl
              (fun a k => min a
                (myFillUpTo ['a', 'b'] (fun s => ((s.length : ℚ) : Cost)) 2 i k
                  + myFillUpTo ['a', 'b'] (fun s => ((s.length : ℚ) : Cost)) 2 (k + 1) j))
              ((fun s => ((s.length : ℚ) : Cost)) (slice ['a', 'b'] i (j + 1))))
      ∧ my_approach ['a', 'b'] (fun s => ((s.length : ℚ) : Cost))
          = some (myFillUpTo ['a', 'b'] (fun s => ((s.length : ℚ) : Cost)) 2 0 1)
      ∧ (∀ l m i j, i ≤ j → j < (['a', 'b'] : List Char).length → j - i ≤ l → l ≤ m →
          myFillUpTo ['a', 'b'] (fun s => ((s.length : ℚ) : Cost)) m i j
            = myFillUpTo ['a', 'b'] (fun s => ((s.length : ℚ) : Cost)) l i j) :=
  C4_interval_table ['a', 'b'] (fun s => ((s.length : ℚ) : Cost)) (by decide)

/-- C5: in `optimal_approach`, `dp[0] = 0`; for `1 ≤ i ≤ n` the final entry
`dp[i]` is the minimum over `j ∈ [0, i-1]` of `dp[j] + B (y[j..i-1])` and
equals the minimum cost of partitioning the length-`i` prefix of `y`;
entries are finalized before later iterations run (every later snapshot
agrees); and the returned result is `dp[n]`. -/
theorem C5_table_invariant (y : List Char) (B : List Char → Cost) :
    optUpTo y B y.length 0 = 0
      ∧ (∀ i, 1 ≤ i → i ≤ y.length →
          optUpTo y B y.length i
              = (List.range i).foldl
                  (fun a j => min a (optUpTo y B y.length j + B (slice y j i))) ⊤
            ∧ IsMinCost (y.take i) B (optUpTo y B y.length i))
      ∧ (∀ m m' i, i ≤ m → m ≤ m' → optUpTo y B m' i = optUpTo y B m i)
      ∧ optimal_approach y B = optUpTo y B y.length y.length := by
  refine ⟨?_, ?_, ?_, rfl⟩
  · rw [optUpTo_eval, if_pos (Nat.zero_le _), prefCost_zero]
  · intro i h1 h2
    constructor
    · rw [optUpTo_eval, if_pos h2]
      have hi : i = (i - 1) + 1 := by omega
      rw [hi, prefCost_succ]
      exact (List.foldl_ext _ _ _ (fun a j hj => by
        have hj' : j ≤ y.length := by
          have := List.mem_range.1 hj
          omega
        rw [optUpTo_eval, if_pos hj'])).symm
    · rw [optUpTo_eval, if_pos h2]
      exact prefCost_min y B i h2
  · intro m m' i him hmm'
    rw [optUpTo_eval, optUpTo_eval, if_pos (by omega : i ≤ m'), if_pos him]

/-- C6: for every non-empty string `y` and cost function `B`, the result of
each solver is at most `B y`, the cost of the whole sequence as one piece. -/
theorem C6_single_piece_bound (y : List Char) (B : List Char → Cost) (hy : y ≠ []) :
    optimal_approach y B ≤ B y
      ∧ ∃ r, my_approach y B = some r ∧ r ≤ B y := by
  have hopt := (optimal_min y B).2 [y] (isPartition_singleton hy)
  rw [partCost_singleton] at hopt
  obtain ⟨r, hr, hmin⟩ := my_min y B hy
  have hmy := hmin.2 [y] (isPartition_singleton hy)
  rw [partCost_singleton] at hmy
  exact ⟨hopt, r, hr, hmy⟩

/-- Witness for C6 at the concrete input "ab". -/
theorem C6_single_piece_bound_witness :
    optimal_approach ['a', 'b'] (fun s => ((s.length : ℚ) : Cost))
        ≤ (fun s => ((s.length : ℚ) : Cost)) ['a', 'b']
      ∧ ∃ r, my_approach ['a', 'b'] (fun s => ((s.length : ℚ) : Cost)) = some r
          ∧ r ≤ (fun s => ((s.length : ℚ) : Cost)) ['a', 'b'] :=
  C6_single_piece_bound ['a', 'b'] (fun s => ((s.length : ℚ) : Cost)) (by decide)

/-- C7: for a string of length exactly one, each solver returns `B` applied
to that single character. -/
theorem C7_single_char (c : Char) (B : List Char → Cost) :
    my_approach [c] B = some (B [c]) ∧ optimal_approach [c] B = B [c] := by
  have hy : ([c] : List Char) ≠ [] := by simp
  have hsingle : IsMinCost [c] B (B [c]) := by
    constructor
    · exact ⟨[[c]], isPartition_singleton hy, partCost_singleton B [c]⟩
    · intro P hP
      rw [partition_of_singleton hP, partCost_singleton]
  obtain ⟨r, hr, hmin⟩ := my_min [c] B hy
  have h1 : r = B [c] := IsMinCost_unique hmin hsingle
  have h2 : optimal_approach [c] B = B [c] :=
    IsMinCost_unique (optimal_min [c] B) hsingle
  exact ⟨h1 ▸ hr, h2⟩

/-- C8: with costs in `WithTop ℚ` (Python's `float('inf')` being `⊤`), both
solvers complete on every non-empty input, and the result is finite exactly
when some partition of `y` avoids all infinite-cost pieces: an infinite
piece is never selected unless every partition is forced to contain one. -/
theorem C8_infinite_costs (y : List Char) (B : List Char → Cost) (hy : y ≠ []) :
    my_approach y B = some (optimal_approach y B)
      ∧ (optimal_approach y B ≠ ⊤
          ↔ ∃ P, IsPartition P y ∧ ∀ p ∈ P, B p ≠ ⊤) := by
  refine ⟨my_eq_optimal y B hy, ?_, ?_⟩
  · intro hne
    obtain ⟨P0, hP0, hc⟩ := (optimal_min y B).1
    refine ⟨P0, hP0, fun p hp hTop => hne ?_⟩
    rw [← hc]
    exact partCost_eq_top hp hTop
  · rintro ⟨P, hP, hfin⟩ hTop
    have hle := (optimal_min y B).2 P hP
    rw [hTop] at hle
    exact partCost_ne_top hfin (top_le_iff.1 hle)

/-- Witness for C8 at the concrete input "ab" with a cost function that is
infinite on pieces of length 2. -/
theorem C8_infinite_costs_witness :
    my_approach ['a', 'b'] (fun s => if s.length = 2 then ⊤ else (1 : Cost))
        = some (optimal_approach ['a', 'b']
            (fun s => if s.length = 2 then ⊤ else (1 : Cost)))
      ∧ (optimal_approach ['a', 'b'] (fun s => if s.length = 2 then ⊤ else (1 : Cost)) ≠ ⊤
          ↔ ∃ P, IsPartition P ['a', 'b']
              ∧ ∀ p ∈ P, (fun s => if s.length = 2 then ⊤ else (1 : Cost)) p ≠ ⊤) :=
  C8_infinite_costs ['a', 'b'] (fun s => if s.length = 2 then ⊤ else (1 : Cost)) (by decide)

/-- C9: each solver is a pure, deterministic function of the pair
(string, cost function): invocations on equal strings and extensionally
equal cost functions return identical results, for both solvers. -/
theorem C9_solvers_pure (x1 x2 : List Char) (B1 B2 : List Char → Cost)
    (hy : x1 = x2) (hB : ∀ s, B1 s = B2 s) :
    my_approach x1 B1 = my_approach x2 B2
      ∧ optimal_approach x1 B1 = optimal_approach x2 B2 := by
  subst hy
  have hBe : B1 = B2 := funext hB
  subst hBe
  exact ⟨rfl, rfl⟩

/-- Witness for C9 at the concrete input "a" with the constant cost 0. -/
theorem C9_solvers_pure_witness :
    my_approach ['a'] (fun _ => (0 : Cost)) = my_approach ['a'] (fun _ => (0 : Cost))
      ∧ optimal_approach ['a'] (fun _ => (0 : Cost))
          = optimal_approach ['a'] (fun _ => (0 : Cost)) :=
  C9_solvers_pure ['a'] ['a'] (fun _ => (0 : Cost)) (fun _ => (0 : Cost)) rfl (fun _ => rfl)

/-- C10: every argument either solver passes to the cost function `B` is a
non-empty contiguous substring of `y`; in particular `B` is never called on
the empty string. -/
theorem C10_call_args (y s : List Char)
    (hs : s ∈ myCallArgs y ∨ s ∈ optCallArgs y) : s ≠ [] ∧ SubSeg s y := by
  rcases hs with hs | hs
  · rcases List.mem_append.1 hs with h1 | h1
    · rcases List.mem_map.1 h1 with ⟨i, hi, hsi⟩
      have hin : i < y.length := List.mem_range.1 hi
      subst hsi
      exact ⟨by simp, by rw [← slice_one hin]; exact slice_is_subseg y i (i + 1)⟩
    · rcases List.mem_flatMap.1 h1 with ⟨l, hl, hsl⟩
      rcases List.mem_map.1 hsl with ⟨i, hi, hsi⟩
      have hl' := List.mem_range'_1.1 hl
      have hin : i < y.length - l := List.mem_range.1 hi
      subst hsi
      exact ⟨slice_ne_nil (by omega) (by omega), slice_is_subseg y i (i + l + 1)⟩
  · rcases List.mem_flatMap.1 hs with ⟨i, hi, hsi⟩
    rcases List.mem_map.1 hsi with ⟨j, hj, hsj⟩
    have hi' := List.mem_range'_1.1 hi
    have hjn : j < i := List.mem_range.1 hj
    subst hsj
    exact ⟨slice_ne_nil (by omega) (by omega), slice_is_subseg y j i⟩

/-- Witness for C10: the first argument `my_approach` passes to `B` on the
input "ab". -/
theorem C10_call_args_witness :
    (['a'] : List Char) ≠ [] ∧ SubSeg ['a'] ['a', 'b'] :=
  C10_call_args ['a', 'b'] ['a'] (Or.inl (by decide))

end Q1
